import Mathlib

set_option autoImplicit false

/-! Shallow embedding of the client-side state model of the audio tag editor
web application (Next.js frontend).  The definitions below are translated
from `src/app/vars/allFilesMetadata.tsx`, `src/app/vars/currentFileIndex.tsx`,
`src/app/components/Workspace.tsx`, `src/app/components/TagEditor.tsx`,
`src/app/components/Toolbar.tsx`, `src/app/components/DownloadButtons.tsx`
and `src/app/config/api.ts`.  JavaScript numbers used as list indices are
modelled as `Int`; optional TypeScript fields as `Option`. -/

namespace AudioTagEditor

/-- The tag fields of one audio file (TypeScript interface `AudioMetadata` in
`src/app/vars/allFilesMetadata.tsx`).  Every field is optional. -/
structure AudioMetadata where
  title : Option String := none
  artist : Option String := none
  album : Option String := none
  genre : Option String := none
  year : Option Int := none
  track : Option String := none
  duration : Option Int := none
  cover_art : Option String := none
  cover_art_mime_type : Option String := none
deriving Repr, DecidableEq

/-- A merge object passed to `updateFileMetadata` and `updateAllFilesMetadata`.
In JavaScript, spreading `fresh` over `old` overrides exactly the keys present
on `fresh`, even when the value carried by such a key is `undefined` (as in
the Remove Cover handler of `TagEditor.tsx`).  The outer `Option` records
whether the key is present; the inner value is the possibly-undefined value
it carries. -/
structure MetadataPatch where
  title : Option (Option String) := none
  artist : Option (Option String) := none
  album : Option (Option String) := none
  genre : Option (Option String) := none
  year : Option (Option Int) := none
  track : Option (Option String) := none
  duration : Option (Option Int) := none
  cover_art : Option (Option String) := none
  cover_art_mime_type : Option (Option String) := none
deriving Repr, DecidableEq

/-- JavaScript object spread: keys present on the patch override the old
object, all other keys keep their old value
(`allFilesMetadata.tsx`, `updateFileMetadata`). -/
def applyPatch (old : AudioMetadata) (p : MetadataPatch) : AudioMetadata where
  title := p.title.getD old.title
  artist := p.artist.getD old.artist
  album := p.album.getD old.album
  genre := p.genre.getD old.genre
  year := p.year.getD old.year
  track := p.track.getD old.track
  duration := p.duration.getD old.duration
  cover_art := p.cover_art.getD old.cover_art
  cover_art_mime_type := p.cover_art_mime_type.getD old.cover_art_mime_type

/-- One entry of the client file store (TypeScript interface `FileMetadata`
in `src/app/vars/allFilesMetadata.tsx`). -/
structure FileMetadata where
  filename : String
  metadata : AudioMetadata
  updatedFilename : Option String := none
  isDownloaded : Option Bool := none
  storedFilename : Option String := none
  downloadedFrom : Option String := none
deriving Repr, DecidableEq

/-- addFileMetadata appends one entry (`allFilesMetadata.tsx`). -/
def addFileMetadata (prev : List FileMetadata) (fm : FileMetadata) :
    List FileMetadata :=
  prev ++ [fm]

/-- updateFileMetadata from `allFilesMetadata.tsx`: copies the list, and when
an element exists at `index` (JavaScript indexing: negative or past-the-end
indices yield `undefined`, which is falsy) replaces it by the same entry with
the patch spread over its `metadata`. -/
def updateFileMetadata (prev : List FileMetadata) (index : Int)
    (p : MetadataPatch) : List FileMetadata :=
  if 0 ≤ index then
    match prev[index.toNat]? with
    | some f => prev.set index.toNat { f with metadata := applyPatch f.metadata p }
    | none => prev
  else prev

/-- updateAllFilesMetadata from `allFilesMetadata.tsx`: spreads the patch over
every entry of the list. -/
def updateAllFilesMetadata (prev : List FileMetadata) (p : MetadataPatch) :
    List FileMetadata :=
  prev.map fun f => { f with metadata := applyPatch f.metadata p }

/-- clearAllMetadata from `allFilesMetadata.tsx`. -/
def clearAllMetadata : List FileMetadata := []

/-- A browser `File` object; only its name is relevant to the claims. -/
structure NamedFile where
  name : String
deriving Repr, DecidableEq

/-- The pieces of shared client state touched by the claims: the ordered
store of `FileMetadata`, the current index (`currentFileIndex.tsx`), the raw
`FileList` (`files.tsx`, `null` modelled as `none`) and the batch-edit flag
(`isBatch.tsx`). -/
structure WorkspaceState where
  allFilesMetadata : List FileMetadata
  currentIndex : Int
  files : Option (List NamedFile)
  isBatch : Bool
deriving Repr, DecidableEq

/-- Initial React state: empty store, index 0, no files, batch off. -/
def initialWorkspace : WorkspaceState :=
  { allFilesMetadata := [], currentIndex := 0, files := none, isBatch := false }

/-- closeWorkspace from `Workspace.tsx`: clears the store, resets the index
and drops the file list (the clear-cache fetch has no client-state effect). -/
def closeWorkspace (s : WorkspaceState) : WorkspaceState :=
  { s with allFilesMetadata := [], currentIndex := 0, files := none }

/-- handleResetAll from `Toolbar.tsx`: `clearAllMetadata` plus
`setCurrentIndex(0)`; it does not touch the `files` list. -/
def handleResetAll (s : WorkspaceState) : WorkspaceState :=
  { s with allFilesMetadata := clearAllMetadata, currentIndex := 0 }

/-- goToNext from `currentFileIndex.tsx`: increments with no upper bound. -/
def goToNext (s : WorkspaceState) : WorkspaceState :=
  { s with currentIndex := s.currentIndex + 1 }

/-- goToPrevious from `currentFileIndex.tsx`: `Math.max(0, prev - 1)`. -/
def goToPrevious (s : WorkspaceState) : WorkspaceState :=
  { s with currentIndex := max 0 (s.currentIndex - 1) }

/-- goToFirst from `currentFileIndex.tsx`. -/
def goToFirst (s : WorkspaceState) : WorkspaceState :=
  { s with currentIndex := 0 }

/-- goToLast from `currentFileIndex.tsx` is a stub that keeps the previous
index unchanged. -/
def goToLast (s : WorkspaceState) : WorkspaceState := s

/-- setCurrentIndex from `currentFileIndex.tsx`. -/
def setCurrentIndex (s : WorkspaceState) (i : Int) : WorkspaceState :=
  { s with currentIndex := i }

/-- The MUI Pagination handler in `TagEditor.tsx` calls
`setCurrentIndex(page - 1)`; the component emits pages between 1 and the
page count. -/
def paginate (s : WorkspaceState) (page : Nat) : WorkspaceState :=
  setCurrentIndex s ((page : Int) - 1)

/-- One element of the `all_files_metadata` array carried by the upload
response (`Workspace.tsx`, handleMetadataLoaded). -/
structure UploadedFileData where
  filename : String
  stored_filename : Option String := none
  metadata : AudioMetadata
deriving Repr, DecidableEq

/-- The detail payload of a `metadataLoaded` CustomEvent
(`Workspace.tsx`, handleMetadataLoaded). -/
structure MetadataLoadedEvent where
  metadata : Option AudioMetadata := none
  filename : Option String := none
  platform : Option String := none
  all_files_metadata : Option (List UploadedFileData) := none
  stored_filename : Option String := none
deriving Repr, DecidableEq

/-- JavaScript `a || b` on an optional string: `a` when present and
non-empty, otherwise `b`. -/
def jsOrStr (a : Option String) (b : String) : String :=
  match a with
  | some s => if s = "" then b else s
  | none => b

/-- The store entry built for one uploaded file in the multi-file branch of
handleMetadataLoaded (`Workspace.tsx`): `isDownloaded` false, no updated
filename, no download provenance. -/
def uploadEntry (fd : UploadedFileData) : FileMetadata where
  filename := fd.filename
  storedFilename := fd.stored_filename
  metadata := fd.metadata
  isDownloaded := some false
  updatedFilename := none
  downloadedFrom := none

/-- The store entry built for a single URL-downloaded file in
handleMetadataLoaded (`Workspace.tsx`): `isDownloaded` true,
`storedFilename` defaults to the filename, `downloadedFrom` defaults to
the string unknown. -/
def singleEntry (e : MetadataLoadedEvent) (m : AudioMetadata) (fn : String) :
    FileMetadata where
  filename := fn
  storedFilename := some (jsOrStr e.stored_filename fn)
  metadata := m
  isDownloaded := some true
  downloadedFrom := some (jsOrStr e.platform "unknown")
  updatedFilename := none

/-- The single-file else-if branch of handleMetadataLoaded
(`Workspace.tsx`): guarded by the truthiness of `filename` and `metadata`. -/
def handleSingleDownload (s : WorkspaceState) (e : MetadataLoadedEvent) :
    WorkspaceState :=
  match e.filename, e.metadata with
  | some fn, some m =>
    if fn = "" then s
    else
      { s with
        allFilesMetadata := addFileMetadata s.allFilesMetadata (singleEntry e m fn)
        currentIndex := (s.allFilesMetadata.length : Int) }
  | _, _ => s

/-- The multi-file branch of handleMetadataLoaded (`Workspace.tsx`): the
mapped entries are appended to the captured current store; the index is set
to 0 when the store was empty and the new block is non-empty, to the old
length when the new block is non-empty, and is untouched otherwise. -/
def uploadBranch (s : WorkspaceState) (l : List UploadedFileData) :
    WorkspaceState :=
  let cur := s.allFilesMetadata
  let newFiles := l.map uploadEntry
  { s with
    allFilesMetadata := cur ++ newFiles
    currentIndex :=
      if cur.length = 0 ∧ newFiles.length > 0 then 0
      else if newFiles.length > 0 then (cur.length : Int)
      else s.currentIndex }

/-- handleMetadataLoaded from `Workspace.tsx`: when the event carries a
non-empty `all_files_metadata` array the multi-file branch runs; otherwise
the single-file branch runs. -/
def handleMetadataLoaded (s : WorkspaceState) (e : MetadataLoadedEvent) :
    WorkspaceState :=
  match e.all_files_metadata with
  | some l =>
    if l.length > 0 then uploadBranch s l
    else handleSingleDownload s e
  | none => handleSingleDownload s e

/-- The sequences of store operations performed by the app, starting from the
initial React state.  The `Bool` index records whether the unguarded
`goToNext` operation is permitted in the sequence.  `setCurrentIndex` appears
through its call sites: the pagination control (pages between 1 and the
store length), handleMetadataLoaded, handleResetAll and closeWorkspace. -/
inductive Reachable : Bool → WorkspaceState → Prop
  | init (b : Bool) : Reachable b initialWorkspace
  | metadataLoaded {b : Bool} {s : WorkspaceState} (e : MetadataLoadedEvent) :
      Reachable b s → Reachable b (handleMetadataLoaded s e)
  | addFile {b : Bool} {s : WorkspaceState} (fm : FileMetadata) :
      Reachable b s →
      Reachable b { s with allFilesMetadata := addFileMetadata s.allFilesMetadata fm }
  | paginateStep {b : Bool} {s : WorkspaceState} (page : Nat) :
      Reachable b s → 1 ≤ page → page ≤ s.allFilesMetadata.length →
      Reachable b (paginate s page)
  | next {s : WorkspaceState} :
      Reachable true s → Reachable true (goToNext s)
  | previous {b : Bool} {s : WorkspaceState} :
      Reachable b s → Reachable b (goToPrevious s)
  | first {b : Bool} {s : WorkspaceState} :
      Reachable b s → Reachable b (goToFirst s)
  | last {b : Bool} {s : WorkspaceState} :
      Reachable b s → Reachable b (goToLast s)
  | reset {b : Bool} {s : WorkspaceState} :
      Reachable b s → Reachable b (handleResetAll s)
  | close {b : Bool} {s : WorkspaceState} :
      Reachable b s → Reachable b (closeWorkspace s)

/-- Effect of handleSingleDownload on the store: it either leaves the state
unchanged or appends one entry, sets the index to the old length and leaves
`files` untouched. -/
lemma handleSingleDownload_cases (s : WorkspaceState) (e : MetadataLoadedEvent) :
    handleSingleDownload s e = s ∨
    ∃ l : List FileMetadata, l ≠ [] ∧
      (handleSingleDownload s e).allFilesMetadata = s.allFilesMetadata ++ l ∧
      (handleSingleDownload s e).currentIndex = (s.allFilesMetadata.length : Int) ∧
      (handleSingleDownload s e).files = s.files := by
  rcases hfn : e.filename with _ | fn
  · left; simp [handleSingleDownload, hfn]
  · rcases hm : e.metadata with _ | m
    · left; simp [handleSingleDownload, hfn, hm]
    · by_cases hfe : fn = ""
      · left; simp [handleSingleDownload, hfn, hm, hfe]
      · right
        exact ⟨[singleEntry e m fn], by simp,
          by simp [handleSingleDownload, hfn, hm, hfe, addFileMetadata],
          by simp [handleSingleDownload, hfn, hm, hfe],
          by simp [handleSingleDownload, hfn, hm, hfe]⟩

/-- Effect of handleMetadataLoaded on the store: it either leaves the state
unchanged or appends a non-empty block of entries, sets the index to the old
length and leaves `files` untouched. -/
lemma handleMetadataLoaded_cases (s : WorkspaceState) (e : MetadataLoadedEvent) :
    handleMetadataLoaded s e = s ∨
    ∃ l : List FileMetadata, l ≠ [] ∧
      (handleMetadataLoaded s e).allFilesMetadata = s.allFilesMetadata ++ l ∧
      (handleMetadataLoaded s e).currentIndex = (s.allFilesMetadata.length : Int) ∧
      (handleMetadataLoaded s e).files = s.files := by
  rcases hafm : e.all_files_metadata with _ | l
  · simpa [handleMetadataLoaded, hafm] using handleSingleDownload_cases s e
  · by_cases hl : l.length > 0
    · right
      have hred : handleMetadataLoaded s e = uploadBranch s l := by
        simp [handleMetadataLoaded, hafm, hl]
      have hnf : (l.map uploadEntry).length > 0 := by simpa using hl
      refine ⟨l.map uploadEntry, by simpa using List.length_pos.mp hl, ?_, ?_, ?_⟩
      · rw [hred]; simp [uploadBranch]
      · rw [hred]
        have hne : l ≠ [] := List.length_pos.mp hl
        simp only [uploadBranch]
        by_cases hc : s.allFilesMetadata.length = 0
        · simp [hc, hnf, hne]
        · simp [hc, hnf, hne]
      · rw [hred]; simp [uploadBranch]
    · simpa [handleMetadataLoaded, hafm, hl] using handleSingleDownload_cases s e

/-- The current index never becomes negative under any sequence of store
operations, `goToNext` included. -/
lemma reachable_nonneg {b : Bool} {s : WorkspaceState} (h : Reachable b s) :
    0 ≤ s.currentIndex := by
  induction h with
  | init => simp [initialWorkspace]
  | metadataLoaded e h ih =>
    rcases handleMetadataLoaded_cases _ e with heq | ⟨l, -, -, hidx, -⟩
    · rwa [heq]
    · rw [hidx]; exact Int.natCast_nonneg _
  | addFile fm h ih => simpa using ih
  | @paginateStep b s page h h1 h2 ih =>
    show (0 : Int) ≤ (page : Int) - 1
    omega
  | @next s h ih =>
    show (0 : Int) ≤ s.currentIndex + 1
    omega
  | @previous b s h ih =>
    show (0 : Int) ≤ max 0 (s.currentIndex - 1)
    exact le_max_left 0 _
  | first h ih => simp [goToFirst]
  | last h ih => simpa [goToLast] using ih
  | reset h ih => simp [handleResetAll]
  | close h ih => simp [closeWorkspace]

/-- Without `goToNext`, the current index stays below the store length
whenever the store is non-empty, and is pinned to 0 when the store is
empty. -/
lemma reachable_inv : ∀ {b : Bool} {s : WorkspaceState}, Reachable b s →
    b = false →
    0 ≤ s.currentIndex ∧
      (s.currentIndex < (s.allFilesMetadata.length : Int) ∨
        (s.currentIndex = 0 ∧ s.allFilesMetadata.length = 0)) := by
  intro b s h
  induction h with
  | init => intro _; simp [initialWorkspace]
  | metadataLoaded e h ih =>
    intro hb
    rcases handleMetadataLoaded_cases _ e with heq | ⟨l, hl, hlist, hidx, -⟩
    · rw [heq]; exact ih hb
    · rw [hidx, hlist]
      have hlen : 0 < l.length := List.length_pos.mpr hl
      refine ⟨Int.natCast_nonneg _, Or.inl ?_⟩
      simp only [List.length_append]
      omega
  | @addFile b s fm h ih =>
    intro hb
    have H := ih hb
    show 0 ≤ s.currentIndex ∧
      (s.currentIndex < ((addFileMetadata s.allFilesMetadata fm).length : Int) ∨
        (s.currentIndex = 0 ∧ (addFileMetadata s.allFilesMetadata fm).length = 0))
    simp only [addFileMetadata, List.length_append, List.length_singleton]
    omega
  | @paginateStep b s page h h1 h2 ih =>
    intro hb
    show 0 ≤ (page : Int) - 1 ∧
      ((page : Int) - 1 < (s.allFilesMetadata.length : Int) ∨
        ((page : Int) - 1 = 0 ∧ s.allFilesMetadata.length = 0))
    omega
  | next h ih => intro hb; exact absurd hb (by simp)
  | @previous b s h ih =>
    intro hb
    have H := ih hb
    show 0 ≤ max 0 (s.currentIndex - 1) ∧
      (max 0 (s.currentIndex - 1) < (s.allFilesMetadata.length : Int) ∨
        (max 0 (s.currentIndex - 1) = 0 ∧ s.allFilesMetadata.length = 0))
    rcases max_cases (0 : Int) (s.currentIndex - 1) with ⟨h1, h2⟩ | ⟨h1, h2⟩ <;>
      rw [h1] <;> omega
  | @first b s h ih =>
    intro hb
    show (0 : Int) ≤ 0 ∧
      ((0 : Int) < (s.allFilesMetadata.length : Int) ∨
        ((0 : Int) = 0 ∧ s.allFilesMetadata.length = 0))
    omega
  | last h ih => intro hb; simpa [goToLast] using ih hb
  | reset h ih => intro hb; simp [handleResetAll, clearAllMetadata]
  | close h ih => intro hb; simp [closeWorkspace]

/-- A concrete metadataLoaded event for a single YouTube download. -/
def sampleDownloadEvent : MetadataLoadedEvent :=
  { metadata := some { title := some "song" }
    filename := some "song.mp3"
    platform := some "youtube" }

/-- C1 counterexample: the claim that the current index stays within
the half-open range from 0 to the store length under every sequence of the
listed operations is false.  After loading a single downloaded file the store
has length 1 and index 0, and one `goToNext` call (which increments with no
upper bound) takes the index to 1, outside the range. -/
theorem currentIndex_range_counterexample :
    Reachable true (goToNext (handleMetadataLoaded initialWorkspace sampleDownloadEvent)) ∧
    ¬(0 ≤ (goToNext (handleMetadataLoaded initialWorkspace sampleDownloadEvent)).currentIndex ∧
      (goToNext (handleMetadataLoaded initialWorkspace sampleDownloadEvent)).currentIndex <
        ((goToNext (handleMetadataLoaded initialWorkspace sampleDownloadEvent)).allFilesMetadata.length : Int)) :=
  ⟨Reachable.next (Reachable.metadataLoaded sampleDownloadEvent (Reachable.init true)),
    by decide⟩

/-- C1 (amended): under every sequence of the listed store operations the
current index stays at least 0; and for every sequence that avoids the
unguarded `goToNext`, the index additionally stays below the store length
whenever the store is non-empty (in the empty store the index is pinned
to 0, which lies outside the empty range). -/
theorem currentIndex_invariant :
    (∀ (b : Bool) (s : WorkspaceState), Reachable b s → 0 ≤ s.currentIndex) ∧
    (∀ s : WorkspaceState, Reachable false s →
      0 ≤ s.currentIndex ∧
        (s.currentIndex < (s.allFilesMetadata.length : Int) ∨
          (s.currentIndex = 0 ∧ s.allFilesMetadata.length = 0))) :=
  ⟨fun _ _ h => reachable_nonneg h, fun _ h => reachable_inv h rfl⟩

/-- C1 witness: the invariant evaluated on a concrete reachable state. -/
theorem currentIndex_invariant_witness :
    0 ≤ (handleMetadataLoaded initialWorkspace sampleDownloadEvent).currentIndex ∧
    (0 ≤ (handleMetadataLoaded initialWorkspace sampleDownloadEvent).currentIndex ∧
      ((handleMetadataLoaded initialWorkspace sampleDownloadEvent).currentIndex <
          ((handleMetadataLoaded initialWorkspace sampleDownloadEvent).allFilesMetadata.length : Int) ∨
        ((handleMetadataLoaded initialWorkspace sampleDownloadEvent).currentIndex = 0 ∧
          (handleMetadataLoaded initialWorkspace sampleDownloadEvent).allFilesMetadata.length = 0))) :=
  ⟨currentIndex_invariant.1 true _
      (Reachable.metadataLoaded sampleDownloadEvent (Reachable.init true)),
    currentIndex_invariant.2 _
      (Reachable.metadataLoaded sampleDownloadEvent (Reachable.init false))⟩

/-- C2: when a metadataLoaded event carries a non-empty `all_files_metadata`
array, one entry per uploaded file is appended to the store, each with
`isDownloaded` false, and the current index is set to the position of the
first newly added entry (the old store length); when it carries no such
array but a truthy filename and a metadata object, exactly one entry is
appended with `isDownloaded` true and the current index is set to that
entry's position. -/
theorem handleMetadataLoaded_populates_store (s : WorkspaceState)
    (e : MetadataLoadedEvent) :
    (∀ l : List UploadedFileData, e.all_files_metadata = some l → l ≠ [] →
      (handleMetadataLoaded s e).allFilesMetadata =
          s.allFilesMetadata ++ l.map uploadEntry ∧
        (handleMetadataLoaded s e).allFilesMetadata.length =
          s.allFilesMetadata.length + l.length ∧
        (∀ fd : UploadedFileData, (uploadEntry fd).isDownloaded = some false) ∧
        (handleMetadataLoaded s e).currentIndex = (s.allFilesMetadata.length : Int)) ∧
    ((e.all_files_metadata = none ∨ e.all_files_metadata = some []) →
      ∀ (fn : String) (m : AudioMetadata),
        e.filename = some fn → fn ≠ "" → e.metadata = some m →
        (handleMetadataLoaded s e).allFilesMetadata =
            s.allFilesMetadata ++ [singleEntry e m fn] ∧
          (singleEntry e m fn).isDownloaded = some true ∧
          (handleMetadataLoaded s e).currentIndex = (s.allFilesMetadata.length : Int)) := by
  constructor
  · intro l hafm hne
    have hl : l.length > 0 := List.length_pos.mpr hne
    have hred : handleMetadataLoaded s e = uploadBranch s l := by
      simp [handleMetadataLoaded, hafm, hl]
    have hnf : (l.map uploadEntry).length > 0 := by simpa using hl
    refine ⟨by rw [hred]; simp [uploadBranch], by rw [hred]; simp [uploadBranch], ?_, ?_⟩
    · intro fd; rfl
    · rw [hred]
      simp only [uploadBranch]
      by_cases hc : s.allFilesMetadata.length = 0
      · simp [hc, hnf, hne]
      · simp [hc, hnf, hne]
  · intro hafm fn m hfn hfe hm
    have hred : handleMetadataLoaded s e = handleSingleDownload s e := by
      rcases hafm with h | h <;> simp [handleMetadataLoaded, h]
    rw [hred]
    refine ⟨?_, rfl, ?_⟩
    · simp [handleSingleDownload, hfn, hm, hfe, addFileMetadata]
    · simp [handleSingleDownload, hfn, hm, hfe]

/-- A concrete uploaded-file payload. -/
def sampleUpload : UploadedFileData := { filename := "a.mp3", metadata := {} }

/-- A concrete upload event carrying one file. -/
def sampleUploadEvent : MetadataLoadedEvent :=
  { all_files_metadata := some [sampleUpload] }

/-- C2 witness: the theorem evaluated on a concrete upload event and a
concrete download event. -/
theorem handleMetadataLoaded_populates_store_witness :
    (handleMetadataLoaded initialWorkspace sampleUploadEvent).allFilesMetadata =
      initialWorkspace.allFilesMetadata ++ [sampleUpload].map uploadEntry ∧
    (handleMetadataLoaded initialWorkspace sampleDownloadEvent).allFilesMetadata =
      initialWorkspace.allFilesMetadata ++
        [singleEntry sampleDownloadEvent { title := some "song" } "song.mp3"] := by
  constructor
  · exact ((handleMetadataLoaded_populates_store initialWorkspace
      sampleUploadEvent).1 [sampleUpload] rfl (by decide)).1
  · exact ((handleMetadataLoaded_populates_store initialWorkspace
      sampleDownloadEvent).2 (Or.inl rfl) "song.mp3" { title := some "song" }
      rfl (by decide) rfl).1

/-- C6: closing the workspace clears the client state entirely, regardless of
the state before the close: the store is empty, the file list is none and the
current index is 0. -/
theorem closeWorkspace_clears_state (s : WorkspaceState) :
    (closeWorkspace s).allFilesMetadata = [] ∧
      (closeWorkspace s).files = none ∧
      (closeWorkspace s).currentIndex = 0 :=
  ⟨rfl, rfl, rfl⟩

/-- C7: updateFileMetadata merges exactly the fields present on the patch
into the metadata of the entry at the given index, leaves every other entry
unchanged, leaves the non-metadata fields of the touched entry unchanged,
and leaves the whole list unchanged when the index is out of range. -/
theorem updateFileMetadata_frame (l : List FileMetadata) (i : Int)
    (p : MetadataPatch) :
    (¬(0 ≤ i ∧ i.toNat < l.length) → updateFileMetadata l i p = l) ∧
    (updateFileMetadata l i p).length = l.length ∧
    (∀ j : Nat, (0 ≤ i → j ≠ i.toNat) →
      (updateFileMetadata l i p)[j]? = l[j]?) ∧
    (0 ≤ i → i.toNat < l.length →
      ∃ old upd : FileMetadata, l[i.toNat]? = some old ∧
        (updateFileMetadata l i p)[i.toNat]? = some upd ∧
        upd.filename = old.filename ∧
        upd.updatedFilename = old.updatedFilename ∧
        upd.isDownloaded = old.isDownloaded ∧
        upd.storedFilename = old.storedFilename ∧
        upd.downloadedFrom = old.downloadedFrom ∧
        upd.metadata.title = p.title.getD old.metadata.title ∧
        upd.metadata.artist = p.artist.getD old.metadata.artist ∧
        upd.metadata.album = p.album.getD old.metadata.album ∧
        upd.metadata.genre = p.genre.getD old.metadata.genre ∧
        upd.metadata.year = p.year.getD old.metadata.year ∧
        upd.metadata.track = p.track.getD old.metadata.track ∧
        upd.metadata.duration = p.duration.getD old.metadata.duration ∧
        upd.metadata.cover_art = p.cover_art.getD old.metadata.cover_art ∧
        upd.metadata.cover_art_mime_type =
          p.cover_art_mime_type.getD old.metadata.cover_art_mime_type) := by
  by_cases h0 : 0 ≤ i
  · rcases hg : l[i.toNat]? with _ | old
    · have hnl : ¬ i.toNat < l.length := by
        intro hlt
        rw [List.getElem?_eq_getElem hlt] at hg
        exact Option.noConfusion hg
      have hupd : updateFileMetadata l i p = l := by
        simp [updateFileMetadata, h0, hg]
      exact ⟨fun _ => hupd, by rw [hupd], fun j _ => by rw [hupd],
        fun _ hlt => absurd hlt hnl⟩
    · have hlt : i.toNat < l.length := by
        by_contra hge
        rw [List.getElem?_eq_none (Nat.le_of_not_lt hge)] at hg
        exact Option.noConfusion hg
      have hupd : updateFileMetadata l i p =
          l.set i.toNat { old with metadata := applyPatch old.metadata p } := by
        simp [updateFileMetadata, h0, hg]
      refine ⟨fun hc => absurd ⟨h0, hlt⟩ hc, by rw [hupd]; simp, ?_, ?_⟩
      · intro j hj
        rw [hupd]
        exact List.getElem?_set_ne fun hh => (hj h0) hh.symm
      · intro _ _
        refine ⟨old, { old with metadata := applyPatch old.metadata p }, rfl, ?_,
          rfl, rfl, rfl, rfl, rfl, rfl, rfl, rfl, rfl, rfl, rfl, rfl, rfl, rfl⟩
        rw [hupd]
        exact List.getElem?_set_eq_of_lt _ hlt
  · have hupd : updateFileMetadata l i p = l := by
      simp [updateFileMetadata, h0]
    exact ⟨fun _ => hupd, by rw [hupd], fun j _ => by rw [hupd],
      fun hge _ => absurd hge h0⟩

/-- C7 witness: the theorem evaluated at a concrete two-entry list, index 0
and a patch setting only the title. -/
theorem updateFileMetadata_frame_witness :
    (updateFileMetadata
        [{ filename := "a.mp3", metadata := {} },
         { filename := "b.mp3", metadata := {} }] 0
        { title := some (some "t") })[1]? =
      ([{ filename := "a.mp3", metadata := {} },
        { filename := "b.mp3", metadata := {} }] : List FileMetadata)[1]? ∧
    ∃ old upd : FileMetadata,
      ([{ filename := "a.mp3", metadata := {} },
        { filename := "b.mp3", metadata := {} }] : List FileMetadata)[(0 : Int).toNat]? = some old ∧
      (updateFileMetadata
          [{ filename := "a.mp3", metadata := {} },
           { filename := "b.mp3", metadata := {} }] 0
          { title := some (some "t") })[(0 : Int).toNat]? = some upd ∧
      upd.filename = old.filename ∧
      upd.metadata.title = (some (some "t") : Option (Option String)).getD old.metadata.title := by
  have H := updateFileMetadata_frame
    [{ filename := "a.mp3", metadata := {} },
     { filename := "b.mp3", metadata := {} }] 0 { title := some (some "t") }
  refine ⟨H.2.2.1 1 (fun _ h => by exact absurd h (by decide)), ?_⟩
  obtain ⟨old, upd, h1, h2, h3, -, -, -, -, h4, -⟩ :=
    H.2.2.2 (by decide) (by decide)
  exact ⟨old, upd, h1, h2, h3, h4⟩

/-- The effect of updateFileMetadata on the touched entry: the patch spread
over its metadata, all other fields kept. -/
def mergeEntry (p : MetadataPatch) (fm : FileMetadata) : FileMetadata :=
  { fm with metadata := applyPatch fm.metadata p }

/-- Entries other than the (non-negative, in-range) index are untouched. -/
lemma updateFileMetadata_getElem?_ne (l : List FileMetadata) (i : Int)
    (p : MetadataPatch) (j : Nat) (hj : 0 ≤ i → j ≠ i.toNat) :
    (updateFileMetadata l i p)[j]? = l[j]? := by
  by_cases h0 : 0 ≤ i
  · rcases hg : l[i.toNat]? with _ | f
    · have hupd : updateFileMetadata l i p = l := by
        simp [updateFileMetadata, h0, hg]
      rw [hupd]
    · have hupd : updateFileMetadata l i p = l.set i.toNat (mergeEntry p f) := by
        simp [updateFileMetadata, h0, hg, mergeEntry]
      rw [hupd]
      exact List.getElem?_set_ne fun hh => (hj h0) hh.symm
  · have hupd : updateFileMetadata l i p = l := by
      simp [updateFileMetadata, h0]
    rw [hupd]

/-- The entry at a non-negative index is replaced by its merge (and a
past-the-end index leaves nothing to replace on either side). -/
lemma updateFileMetadata_getElem?_self (l : List FileMetadata) (i : Int)
    (p : MetadataPatch) (h0 : 0 ≤ i) :
    (updateFileMetadata l i p)[i.toNat]? = (l[i.toNat]?).map (mergeEntry p) := by
  rcases hg : l[i.toNat]? with _ | f
  · have hupd : updateFileMetadata l i p = l := by
      simp [updateFileMetadata, h0, hg]
    rw [hupd, hg]
    rfl
  · have hlt : i.toNat < l.length := by
      by_contra hge
      rw [List.getElem?_eq_none (Nat.le_of_not_lt hge)] at hg
      exact Option.noConfusion hg
    have hupd : updateFileMetadata l i p = l.set i.toNat (mergeEntry p f) := by
      simp [updateFileMetadata, h0, hg, mergeEntry]
    rw [hupd, List.getElem?_set_eq_of_lt _ hlt]
    rfl

/-- Nat-index version of the frame lemma. -/
lemma updateFileMetadata_nat_ne (l : List FileMetadata) (k j : Nat)
    (p : MetadataPatch) (h : k ≠ j) :
    (updateFileMetadata l (k : Int) p)[j]? = l[j]? := by
  refine updateFileMetadata_getElem?_ne l (k : Int) p j fun _ hj => ?_
  rw [Int.toNat_natCast] at hj
  exact h hj.symm

/-- Nat-index version of the merge lemma. -/
lemma updateFileMetadata_nat_self (l : List FileMetadata) (k : Nat)
    (p : MetadataPatch) :
    (updateFileMetadata l (k : Int) p)[k]? = (l[k]?).map (mergeEntry p) := by
  have h := updateFileMetadata_getElem?_self l (k : Int) p (Int.natCast_nonneg k)
  rwa [Int.toNat_natCast] at h

/-- The batch loop of handleInputChange (`TagEditor.tsx`): a forEach over the
store indices, each iteration a functional updateFileMetadata at that
index. -/
def batchUpdate (p : MetadataPatch) (l : List FileMetadata) : List FileMetadata :=
  (List.range l.length).foldl (fun (acc : List FileMetadata) (i : Nat) => updateFileMetadata acc (i : Int) p) l

/-- Pointwise effect of the first `k` iterations of the batch loop. -/
lemma foldl_update_getElem? (p : MetadataPatch) (l : List FileMetadata)
    (k j : Nat) :
    ((List.range k).foldl (fun (acc : List FileMetadata) (i : Nat) => updateFileMetadata acc (i : Int) p) l)[j]? =
      if j < k then (l[j]?).map (mergeEntry p) else l[j]? := by
  induction k with
  | zero => simp
  | succ n ih =>
    rw [List.range_succ, List.foldl_append, List.foldl_cons, List.foldl_nil]
    by_cases hjn : j = n
    · subst hjn
      have hacc :
          ((List.range j).foldl (fun (acc : List FileMetadata) (i : Nat) => updateFileMetadata acc (i : Int) p) l)[j]? =
            l[j]? := by
        rw [ih]
        simp
      rw [updateFileMetadata_nat_self, hacc]
      simp [Nat.lt_succ_self]
    · rw [updateFileMetadata_nat_ne _ _ _ _ fun hh => hjn hh.symm, ih]
      by_cases hlt : j < n
      · simp [hlt, Nat.lt_succ_of_lt hlt]
      · have hns : ¬ j < n + 1 := by omega
        simp [hlt, hns]

/-- The four text fields routed through handleInputChange in
`TagEditor.tsx` (title, album, artist, genre text inputs). -/
inductive EditField
  | title
  | artist
  | album
  | genre
deriving Repr, DecidableEq

/-- The single-key merge object `[field]: event.target.value` built by
handleInputChange. -/
def fieldPatch : EditField → String → MetadataPatch
  | .title, v => { title := some (some v) }
  | .artist, v => { artist := some (some v) }
  | .album, v => { album := some (some v) }
  | .genre, v => { genre := some (some v) }

/-- handleInputChange from `TagEditor.tsx`: with the batch flag set it runs
updateFileMetadata at every index of the store; otherwise only at the
current index. -/
def handleInputChange (isBatch : Bool) (currentIndex : Int) (f : EditField)
    (v : String) (l : List FileMetadata) : List FileMetadata :=
  if isBatch then batchUpdate (fieldPatch f v) l
  else updateFileMetadata l currentIndex (fieldPatch f v)

/-- C8: with the batch flag set, a single field edit writes the new value of
exactly that field into the metadata of every entry (all other metadata
fields and all non-metadata fields of every entry unchanged); with the flag
unset, only the entry at the current index is modified, in the same way. -/
theorem handleInputChange_batch_frame (ci : Int) (f : EditField) (v : String)
    (l : List FileMetadata) :
    (∀ j : Nat,
      (handleInputChange true ci f v l)[j]? =
        (l[j]?).map (mergeEntry (fieldPatch f v))) ∧
    ((∀ j : Nat, (0 ≤ ci → j ≠ ci.toNat) →
        (handleInputChange false ci f v l)[j]? = l[j]?) ∧
      (0 ≤ ci →
        (handleInputChange false ci f v l)[ci.toNat]? =
          (l[ci.toNat]?).map (mergeEntry (fieldPatch f v)))) ∧
    (∀ fm : FileMetadata,
      (mergeEntry (fieldPatch f v) fm).filename = fm.filename ∧
      (mergeEntry (fieldPatch f v) fm).updatedFilename = fm.updatedFilename ∧
      (mergeEntry (fieldPatch f v) fm).isDownloaded = fm.isDownloaded ∧
      (mergeEntry (fieldPatch f v) fm).storedFilename = fm.storedFilename ∧
      (mergeEntry (fieldPatch f v) fm).downloadedFrom = fm.downloadedFrom ∧
      (mergeEntry (fieldPatch f v) fm).metadata.title =
        (if f = EditField.title then some v else fm.metadata.title) ∧
      (mergeEntry (fieldPatch f v) fm).metadata.artist =
        (if f = EditField.artist then some v else fm.metadata.artist) ∧
      (mergeEntry (fieldPatch f v) fm).metadata.album =
        (if f = EditField.album then some v else fm.metadata.album) ∧
      (mergeEntry (fieldPatch f v) fm).metadata.genre =
        (if f = EditField.genre then some v else fm.metadata.genre) ∧
      (mergeEntry (fieldPatch f v) fm).metadata.year = fm.metadata.year ∧
      (mergeEntry (fieldPatch f v) fm).metadata.track = fm.metadata.track ∧
      (mergeEntry (fieldPatch f v) fm).metadata.duration = fm.metadata.duration ∧
      (mergeEntry (fieldPatch f v) fm).metadata.cover_art = fm.metadata.cover_art ∧
      (mergeEntry (fieldPatch f v) fm).metadata.cover_art_mime_type =
        fm.metadata.cover_art_mime_type) := by
  refine ⟨?_, ⟨?_, ?_⟩, ?_⟩
  · intro j
    show (batchUpdate (fieldPatch f v) l)[j]? = _
    rw [batchUpdate, foldl_update_getElem?]
    by_cases hj : j < l.length
    · simp [hj]
    · have hge : l.length ≤ j := Nat.le_of_not_lt hj
      rw [if_neg hj, List.getElem?_eq_none hge]
      rfl
  · intro j hj
    exact updateFileMetadata_getElem?_ne l ci (fieldPatch f v) j hj
  · intro h0
    exact updateFileMetadata_getElem?_self l ci (fieldPatch f v) h0
  · intro fm
    cases f <;>
      simp [mergeEntry, fieldPatch, applyPatch]

/-- C8 witness: the theorem evaluated at a concrete two-entry list and a
genre edit. -/
theorem handleInputChange_batch_frame_witness :
    (handleInputChange true 0 EditField.genre "g"
        [{ filename := "a.mp3", metadata := {} },
         { filename := "b.mp3", metadata := {} }])[1]? =
      (([{ filename := "a.mp3", metadata := {} },
          { filename := "b.mp3", metadata := {} }] : List FileMetadata)[1]?).map
        (mergeEntry (fieldPatch EditField.genre "g")) ∧
    (handleInputChange false 0 EditField.genre "g"
        [{ filename := "a.mp3", metadata := {} },
         { filename := "b.mp3", metadata := {} }])[1]? =
      ([{ filename := "a.mp3", metadata := {} },
        { filename := "b.mp3", metadata := {} }] : List FileMetadata)[1]? := by
  have H := handleInputChange_batch_frame 0 EditField.genre "g"
    [{ filename := "a.mp3", metadata := {} },
     { filename := "b.mp3", metadata := {} }]
  exact ⟨H.1 1, H.2.1.1 1 (fun _ h => by exact absurd h (by decide))⟩

/-- The context autoSave reads (`TagEditor.tsx`): the raw file list, the
current index and the in-flight flag `isAutoSavingRef`. -/
structure AutoSaveContext where
  files : Option (List NamedFile)
  currentIndex : Int
  isAutoSaving : Bool
deriving Repr, DecidableEq

/-- The `files && files.length > currentIndex ? files[currentIndex] : null`
selection in autoSave (`TagEditor.tsx`): JavaScript indexing at a negative
index yields `undefined`, which is falsy like `null`. -/
def currentFile (files : Option (List NamedFile)) (i : Int) : Option NamedFile :=
  match files with
  | none => none
  | some fs =>
    if i < (fs.length : Int) then
      (if 0 ≤ i then fs[i.toNat]? else none)
    else none

/-- autoSave from `TagEditor.tsx`, abstracted to its state effect and to
whether an HTTP request is issued: it returns early (no request, no state
change) when a save is already in flight or when there is no File object at
the current index; otherwise it marks a save as in flight and issues the
request. -/
def autoSave (s : AutoSaveContext) : AutoSaveContext × Bool :=
  if s.isAutoSaving then (s, false)
  else
    match currentFile s.files s.currentIndex with
    | none => (s, false)
    | some _ => ({ s with isAutoSaving := true }, true)

/-- C9: autoSave is a no-op issuing no HTTP request and changing no state
whenever the file list is `null`, or its length is not greater than the
current index, or another auto-save is already in flight.  Entries without a
corresponding File object are therefore never saved by this path. -/
theorem autoSave_noop_conditions (s : AutoSaveContext)
    (h : s.files = none ∨
      (∃ fs : List NamedFile, s.files = some fs ∧
        ¬((fs.length : Int) > s.currentIndex)) ∨
      s.isAutoSaving = true) :
    autoSave s = (s, false) := by
  rcases h with h | ⟨fs, hfs, hlen⟩ | h
  · by_cases hsav : s.isAutoSaving
    · simp [autoSave, hsav]
    · simp [autoSave, hsav, currentFile, h]
  · by_cases hsav : s.isAutoSaving
    · simp [autoSave, hsav]
    · have hcf : currentFile s.files s.currentIndex = none := by
        rw [hfs]
        simp only [currentFile]
        rw [if_neg (by omega)]
      simp [autoSave, hsav, hcf]
  · simp [autoSave, h]

/-- C9 witness: a context whose file list is shorter than the current index
produces no request and no state change. -/
theorem autoSave_noop_conditions_witness :
    autoSave { files := some [{ name := "a.mp3" }], currentIndex := 1,
               isAutoSaving := false } =
      ({ files := some [{ name := "a.mp3" }], currentIndex := 1,
         isAutoSaving := false }, false) :=
  autoSave_noop_conditions _
    (Or.inr (Or.inl ⟨[{ name := "a.mp3" }], rfl, by decide⟩))

/-- The state of the debounced auto-save pipeline (`TagEditor.tsx`):
`autoSaveTimeoutRef` holds at most one scheduled timer, modelled by the
optional absolute fire time; `isAutoSavingRef` is the in-flight flag; and
`outstanding` counts the auto-save HTTP requests started but not yet
settled. -/
structure AutoSavePipeline where
  pendingFire : Option Nat
  isAutoSaving : Bool
  outstanding : Nat
deriving Repr, DecidableEq

/-- The pipeline before any edit: no timer, no save in flight. -/
def pipelineInit : AutoSavePipeline :=
  { pendingFire := none, isAutoSaving := false, outstanding := 0 }

/-- debouncedAutoSave (`TagEditor.tsx`): clearTimeout on the single ref
cancels any pending timer, then setTimeout schedules the save 1000 ms from
now. -/
def pipelineEdit (s : AutoSavePipeline) (now : Nat) : AutoSavePipeline :=
  { s with pendingFire := some (now + 1000) }

/-- The scheduled timeout fires and runs autoSave (`TagEditor.tsx`): with a
save already in flight, or with no File at the current index (`hasFile`
false), it returns without starting a request; otherwise it marks the save
in flight and starts one request. -/
def pipelineFire (s : AutoSavePipeline) (hasFile : Bool) : AutoSavePipeline :=
  if s.isAutoSaving then { s with pendingFire := none }
  else if hasFile then
    { pendingFire := none, isAutoSaving := true,
      outstanding := s.outstanding + 1 }
  else { s with pendingFire := none }

/-- An outstanding request settles; the finally block resets the in-flight
flag (`TagEditor.tsx`). -/
def pipelineComplete (s : AutoSavePipeline) : AutoSavePipeline :=
  { s with isAutoSaving := false, outstanding := s.outstanding - 1 }

/-- The pipeline states reachable from the initial state: edits at arbitrary
times, timer fires (only when a timer is pending) and request completions
(only when a request is outstanding). -/
inductive PipelineReachable : AutoSavePipeline → Prop
  | init : PipelineReachable pipelineInit
  | edit {s : AutoSavePipeline} (now : Nat) :
      PipelineReachable s → PipelineReachable (pipelineEdit s now)
  | fire {s : AutoSavePipeline} (t : Nat) (hasFile : Bool) :
      PipelineReachable s → s.pendingFire = some t →
      PipelineReachable (pipelineFire s hasFile)
  | complete {s : AutoSavePipeline} :
      PipelineReachable s → 1 ≤ s.outstanding →
      PipelineReachable (pipelineComplete s)

/-- In every reachable pipeline state the number of outstanding requests
matches the in-flight flag, so it never exceeds one. -/
lemma pipeline_invariant {s : AutoSavePipeline} (h : PipelineReachable s) :
    s.outstanding = (if s.isAutoSaving then 1 else 0) := by
  induction h with
  | init => rfl
  | edit now h ih => simpa [pipelineEdit] using ih
  | @fire s t hasFile h hp ih =>
    by_cases hsav : s.isAutoSaving
    · simp [pipelineFire, hsav] at ih ⊢
      exact ih
    · cases hasFile <;> simp [pipelineFire, hsav] at ih ⊢ <;> omega
  | @complete s h hout ih =>
    by_cases hsav : s.isAutoSaving <;>
      simp [pipelineComplete, hsav] at ih ⊢ <;>
      omega

/-- C3: every field edit cancels the pending auto-save timer (the single
timeout ref) and schedules exactly one new save 1000 ms later; a timer that
fires while a save is in flight starts no second request; and in every
reachable pipeline state at most one auto-save request is outstanding. -/
theorem autoSave_pipeline_serializes :
    (∀ (s : AutoSavePipeline) (now : Nat),
      (pipelineEdit s now).pendingFire = some (now + 1000)) ∧
    (∀ (s : AutoSavePipeline) (hasFile : Bool), s.isAutoSaving = true →
      (pipelineFire s hasFile).outstanding = s.outstanding) ∧
    (∀ s : AutoSavePipeline, PipelineReachable s → s.outstanding ≤ 1) := by
  refine ⟨fun s now => rfl, fun s hasFile h => by simp [pipelineFire, h], ?_⟩
  intro s h
  have := pipeline_invariant h
  by_cases hsav : s.isAutoSaving <;> simp [hsav] at this <;> omega

/-- C3 witness: the theorem evaluated on a concrete edit, a concrete fire
during an in-flight save, and a concrete reachable state. -/
theorem autoSave_pipeline_serializes_witness :
    (pipelineEdit pipelineInit 5).pendingFire = some 1005 ∧
    (pipelineFire { pendingFire := none, isAutoSaving := true, outstanding := 1 }
        true).outstanding = 1 ∧
    (pipelineFire (pipelineEdit pipelineInit 5) true).outstanding ≤ 1 :=
  ⟨autoSave_pipeline_serializes.1 pipelineInit 5,
    autoSave_pipeline_serializes.2.1
      { pendingFire := none, isAutoSaving := true, outstanding := 1 } true rfl,
    autoSave_pipeline_serializes.2.2 _
      (PipelineReachable.fire 1005 true
        (PipelineReachable.edit 5 PipelineReachable.init) rfl)⟩

/-- The dimension computation of handleCoverArtUpload (`TagEditor.tsx`):
with `maxSize` 500, the larger dimension (ties go to the height branch) is
clamped to 500 and the other is scaled by the same ratio; an image already
within 500 in both dimensions is left as is.  JavaScript float arithmetic is
modelled by exact rationals. -/
def resizeCoverArt (w h : ℚ) : ℚ × ℚ :=
  let maxSize : ℚ := 500
  if w > h then
    if w > maxSize then (maxSize, h * maxSize / w) else (w, h)
  else
    if h > maxSize then (w * maxSize / h, maxSize) else (w, h)

/-- C4: the resized cover art has width and height each at most 500; when
the larger input dimension exceeds 500 it is scaled to exactly 500 and the
aspect ratio is preserved (stated by cross multiplication); and an image
whose dimensions are both at most 500 keeps its original dimensions. -/
theorem resizeCoverArt_bounds (w h : ℚ) (hw : 0 < w) (hh : 0 < h) :
    (resizeCoverArt w h).1 ≤ 500 ∧
    (resizeCoverArt w h).2 ≤ 500 ∧
    (500 < max w h →
      max (resizeCoverArt w h).1 (resizeCoverArt w h).2 = 500 ∧
      (resizeCoverArt w h).2 * w = (resizeCoverArt w h).1 * h) ∧
    (w ≤ 500 → h ≤ 500 → resizeCoverArt w h = (w, h)) := by
  unfold resizeCoverArt
  by_cases hwh : w > h
  · by_cases hw5 : w > (500 : ℚ)
    · simp only [hwh, hw5, if_pos]
      have hscaled : h * 500 / w ≤ 500 := by
        rw [div_le_iff₀ hw]
        nlinarith

      refine ⟨le_refl 500, hscaled, fun _ => ⟨?_, by field_simp; ring⟩, ?_⟩
      · exact max_eq_left hscaled
      · intro hwle _
        exact absurd hw5 (not_lt.mpr hwle)
    · simp only [hwh, hw5, if_pos, if_neg]
      have hh5 : h ≤ 500 := le_of_lt (lt_of_lt_of_le hwh (not_lt.mp hw5))
      refine ⟨not_lt.mp hw5, hh5, fun hmax => ?_, fun _ _ => rfl⟩
      rw [max_eq_left (le_of_lt hwh)] at hmax
      exact absurd hmax (not_lt.mpr (not_lt.mp hw5))
  · by_cases hh5 : h > (500 : ℚ)
    · simp only [hwh, hh5, if_neg, if_pos]
      have hwle : w ≤ h := not_lt.mp hwh
      have hscaled : w * 500 / h ≤ 500 := by
        rw [div_le_iff₀ hh]
        nlinarith
      refine ⟨hscaled, le_refl 500, fun _ => ⟨?_, by field_simp; ring⟩, ?_⟩
      · exact max_eq_right hscaled
      · intro _ hhle
        exact absurd hh5 (not_lt.mpr hhle)
    · simp only [hwh, hh5, if_neg]
      have hwle : w ≤ h := not_lt.mp hwh
      refine ⟨le_trans hwle (not_lt.mp hh5), not_lt.mp hh5, fun hmax => ?_,
        fun _ _ => rfl⟩
      rw [max_eq_right hwle] at hmax
      exact absurd hmax (not_lt.mpr (not_lt.mp hh5))

/-- C4 witness: an 800 by 600 image resizes to 500 by 375 and satisfies the
theorem at that input. -/
theorem resizeCoverArt_bounds_witness :
    (0 : ℚ) < 800 ∧ (0 : ℚ) < 600 ∧
    (resizeCoverArt 800 600).1 ≤ 500 ∧
    (resizeCoverArt 800 600).2 ≤ 500 ∧
    ((500 : ℚ) < max 800 600 →
      max (resizeCoverArt 800 600).1 (resizeCoverArt 800 600).2 = 500 ∧
      (resizeCoverArt 800 600).2 * 800 = (resizeCoverArt 800 600).1 * 600) ∧
    ((800 : ℚ) ≤ 500 → (600 : ℚ) ≤ 500 → resizeCoverArt 800 600 = (800, 600)) :=
  ⟨by norm_num, by norm_num,
    resizeCoverArt_bounds 800 600 (by norm_num) (by norm_num)⟩

/-- The upload endpoint routed directly to the backend
(`VERCEL_PAYLOAD_WORKAROUND.md` endpoint table). -/
def uploadEndpoint : String := "/upload/"

/-- Modelled from the spec: the deployed `src/app/config/api.ts` that defines
`DIRECT_BACKEND_URL` and special-cases the upload endpoint is not among the
surveyed sources; only its caller
(`src/app/api/upload/files/all/route.ts`, which reads
`API_CONFIG.DIRECT_BACKEND_URL`) and the repository document
`VERCEL_PAYLOAD_WORKAROUND.md` refer to it.  Following the spec and that
document: the upload endpoint resolves to the direct backend base URL
(bypassing the serverless payload-size limit) and every other endpoint
resolves to its own relative path served by the Next.js API proxy routes. -/
def getApiUrl (directBackendUrl endpoint : String) : String :=
  if endpoint = uploadEndpoint then directBackendUrl ++ endpoint
  else endpoint

/-- The non-upload endpoints, each a Next.js API proxy route
(`VERCEL_PAYLOAD_WORKAROUND.md` endpoint table and the route files under
`src/app/api/upload/`). -/
def proxiedEndpoints : List String :=
  ["/api/upload/update-tags",
   "/api/upload/download/youtube",
   "/api/upload/download/soundcloud",
   "/api/upload/cover-art",
   "/api/upload/download-latest",
   "/api/upload/download-all"]

/-- C5: the URL produced for the upload endpoint is the backend base URL
followed by the endpoint, while the URL produced for every other endpoint is
the endpoint itself, a relative path under the `/api/` prefix. -/
theorem getApiUrl_routes (base : String) :
    getApiUrl base uploadEndpoint = base ++ "/upload/" ∧
    (∀ e, e ∈ proxiedEndpoints →
      getApiUrl base e = e ∧ e.data.take 5 = "/api/".data) := by
  constructor
  · simp [getApiUrl, uploadEndpoint]
  · intro e he
    fin_cases he <;> exact ⟨by simp [getApiUrl, uploadEndpoint], by decide⟩

/-- C5 witness: the theorem evaluated at the production backend base URL and
the update-tags endpoint. -/
theorem getApiUrl_routes_witness :
    getApiUrl "https://audio-tag-editor-web.onrender.com" uploadEndpoint =
      "https://audio-tag-editor-web.onrender.com" ++ "/upload/" ∧
    getApiUrl "https://audio-tag-editor-web.onrender.com"
        "/api/upload/update-tags" = "/api/upload/update-tags" :=
  ⟨(getApiUrl_routes "https://audio-tag-editor-web.onrender.com").1,
    ((getApiUrl_routes "https://audio-tag-editor-web.onrender.com").2
      "/api/upload/update-tags" (by decide)).1⟩

/-- The characters removed from a title-derived filename
(`DownloadButtons.tsx`, the replace of the invalid filename characters). -/
def bannedFilenameChar (c : Char) : Bool :=
  c = '<' || c = '>' || c = ':' || c = '"' || c = '/' ||
    c = '\\' || c = '|' || c = '?' || c = '*'

/-- JavaScript String.prototype.trim modelled on the character list:
whitespace stripped from both ends. -/
def jsTrim (t : String) : String :=
  String.mk
    (((t.data.dropWhile Char.isWhitespace).reverse.dropWhile
        Char.isWhitespace).reverse)

/-- The whitespace-collapsing replace (`DownloadButtons.tsx`): every maximal
run of whitespace becomes one space.  The flag records whether the previous
input character belonged to a whitespace run. -/
def collapseWsAux : Bool → List Char → List Char
  | _, [] => []
  | prevWs, c :: cs =>
    if c.isWhitespace then
      if prevWs then collapseWsAux true cs
      else ' ' :: collapseWsAux true cs
    else c :: collapseWsAux false cs

/-- The title pipeline of handleDownload (`DownloadButtons.tsx`): trim, strip
invalid filename characters, collapse whitespace runs, truncate to 100
characters. -/
def sanitizeTitle (t : String) : String :=
  String.mk
    ((collapseWsAux false
        ((jsTrim t).data.filter fun c => !bannedFilenameChar c)).take 100)

/-- JavaScript lastIndexOf of the dot character, as an optional index. -/
def lastDotIndexAux : List Char → Option Nat
  | [] => none
  | c :: cs =>
    match lastDotIndexAux cs with
    | some i => some (i + 1)
    | none => if c = '.' then some 0 else none

/-- The extension-stripping fallback of handleDownload
(`DownloadButtons.tsx`): the prefix before the last dot when that dot sits
at a positive index, the whole name otherwise. -/
def stripExtension (name : String) : String :=
  match lastDotIndexAux name.data with
  | some i => if 0 < i then String.mk (name.data.take i) else name
  | none => name

/-- The fallback base name: the first file's name without its extension, or
the literal audio_file default when no file exists. -/
def fallbackBase : List NamedFile → String
  | f :: _ => stripExtension f.name
  | [] => "audio_file"

/-- The filename offered by handleDownload (`DownloadButtons.tsx`): the
sanitized title when the title is truthy and truthy after trimming,
otherwise the fallback base name; with the mp3 extension appended. -/
def deriveDownloadFilename (title : Option String) (files : List NamedFile) :
    String :=
  (match title with
   | some t =>
     if t ≠ "" ∧ jsTrim t ≠ "" then sanitizeTitle t else fallbackBase files
   | none => fallbackBase files) ++ ".mp3"

/-- Every whitespace character surviving the collapse is a single space. -/
lemma ws_collapseWsAux :
    ∀ (l : List Char) (b : Bool) (c : Char), c ∈ collapseWsAux b l →
      c.isWhitespace → c = ' ' := by
  intro l
  induction l with
  | nil => intro b c hc; simp [collapseWsAux] at hc
  | cons c0 cs ih =>
    intro b c hc hws
    by_cases h0 : c0.isWhitespace
    · cases b with
      | true =>
        simp only [collapseWsAux, h0, if_pos, if_true] at hc
        exact ih true c hc hws
      | false =>
        simp only [collapseWsAux, h0, if_pos, if_false] at hc
        rcases List.mem_cons.mp hc with hc | hc
        · exact hc
        · exact ih true c hc hws
    · simp only [collapseWsAux, h0, if_neg, if_false] at hc
      rcases List.mem_cons.mp hc with hc | hc
      · exact absurd (hc ▸ hws) h0
      · exact ih false c hc hws

/-- Every character surviving the collapse is a space or an input
character. -/
lemma mem_collapseWsAux :
    ∀ (l : List Char) (b : Bool) (c : Char), c ∈ collapseWsAux b l →
      c = ' ' ∨ c ∈ l := by
  intro l
  induction l with
  | nil => intro b c hc; simp [collapseWsAux] at hc
  | cons c0 cs ih =>
    intro b c hc
    by_cases h0 : c0.isWhitespace
    · cases b with
      | true =>
        simp only [collapseWsAux, h0, if_pos, if_true] at hc
        rcases ih true c hc with h | h
        · exact Or.inl h
        · exact Or.inr (List.mem_cons_of_mem _ h)
      | false =>
        simp only [collapseWsAux, h0, if_pos, if_false] at hc
        rcases List.mem_cons.mp hc with hc | hc
        · exact Or.inl hc
        · rcases ih true c hc with h | h
          · exact Or.inl h
          · exact Or.inr (List.mem_cons_of_mem _ h)
    · simp only [collapseWsAux, h0, if_neg, if_false] at hc
      rcases List.mem_cons.mp hc with hc | hc
      · exact Or.inr (hc ▸ List.mem_cons_self c0 cs)
      · rcases ih false c hc with h | h
        · exact Or.inl h
        · exact Or.inr (List.mem_cons_of_mem _ h)

/-- After a whitespace run was just emitted, the collapse output starts with
a non-whitespace character. -/
lemma head_collapseWsAux :
    ∀ (l : List Char) (c : Char),
      (collapseWsAux true l).head? = some c → c.isWhitespace = false := by
  intro l
  induction l with
  | nil => intro c hc; simp [collapseWsAux] at hc
  | cons c0 cs ih =>
    intro c hc
    by_cases h0 : c0.isWhitespace
    · simp only [collapseWsAux, h0, if_pos, if_true] at hc
      exact ih c hc
    · have hred : collapseWsAux true (c0 :: cs) = c0 :: collapseWsAux false cs := by
        simp [collapseWsAux, h0]
      rw [hred, List.head?_cons] at hc
      obtain rfl := Option.some.inj hc
      exact Bool.eq_false_iff.mpr h0

/-- The collapse output never has two adjacent whitespace characters. -/
lemma chain_collapseWsAux :
    ∀ (l : List Char) (b : Bool),
      List.Chain' (fun a b => ¬(a.isWhitespace ∧ b.isWhitespace))
        (collapseWsAux b l) := by
  intro l
  induction l with
  | nil => intro b; simp [collapseWsAux]
  | cons c0 cs ih =>
    intro b
    by_cases h0 : c0.isWhitespace
    · cases b with
      | true =>
        simp only [collapseWsAux, h0, if_pos, if_true]
        exact ih true
      | false =>
        simp only [collapseWsAux, h0, if_pos, if_false]
        refine List.chain'_cons'.mpr ⟨?_, ih true⟩
        intro y hy hcon
        have := head_collapseWsAux cs y hy
        rw [this] at hcon
        exact Bool.noConfusion hcon.2
    · simp only [collapseWsAux, h0, if_neg, if_false]
      refine List.chain'_cons'.mpr ⟨?_, ih false⟩
      intro y hy hcon
      exact h0 hcon.1

/-- When lastDotIndexAux finds nothing there is no dot in the list. -/
lemma lastDotIndexAux_none :
    ∀ l : List Char, lastDotIndexAux l = none → Char.ofNat 46 ∉ l := by
  intro l
  induction l with
  | nil => intro _; simp
  | cons c cs ih =>
    intro h
    rcases hcs : lastDotIndexAux cs with _ | j
    · simp only [lastDotIndexAux, hcs] at h
      by_cases hc : c = '.'
      · rw [if_pos hc] at h
        exact Option.noConfusion h
      · rw [if_neg hc] at h
        intro hmem
        rcases List.mem_cons.mp hmem with hmem | hmem
        · exact hc hmem.symm
        · exact ih hcs hmem
    · simp only [lastDotIndexAux, hcs] at h
      exact Option.noConfusion h

/-- When lastDotIndexAux returns an index, the list decomposes as the prefix
before that index, a dot, and a dot-free suffix. -/
lemma lastDotIndexAux_some :
    ∀ (l : List Char) (i : Nat), lastDotIndexAux l = some i →
      i < l.length ∧ l = l.take i ++ '.' :: l.drop (i + 1) ∧
        ∀ c ∈ l.drop (i + 1), c ≠ '.' := by
  intro l
  induction l with
  | nil => intro i h; exact Option.noConfusion h
  | cons c cs ih =>
    intro i h
    rcases hcs : lastDotIndexAux cs with _ | j
    · simp only [lastDotIndexAux, hcs] at h
      by_cases hc : c = '.'
      · rw [if_pos hc] at h
        obtain rfl := Option.some.inj h
        refine ⟨Nat.succ_pos _, ?_, ?_⟩
        · simp [hc]
        · intro x hx hxe
          have hnd := lastDotIndexAux_none cs hcs
          simp only [List.drop_succ_cons, List.drop_zero] at hx
          exact hnd (by simpa [hxe] using hx)
      · rw [if_neg hc] at h
        exact Option.noConfusion h
    · simp only [lastDotIndexAux, hcs, Option.some.injEq] at h
      obtain ⟨hlt, heq, hclean⟩ := ih j hcs
      subst h
      refine ⟨by simpa using Nat.succ_lt_succ hlt, ?_, ?_⟩
      · simpa [List.take_succ_cons, List.drop_succ_cons] using congrArg (c :: ·) heq
      · intro x hx
        rw [List.drop_succ_cons] at hx
        exact hclean x hx

/-- stripExtension either removes a final dot-led extension (leaving a
non-empty stem) or returns the name unchanged. -/
lemma stripExtension_spec (name : String) :
    (∃ ext : List Char,
      name.data = (stripExtension name).data ++ '.' :: ext ∧
        (∀ c ∈ ext, c ≠ '.') ∧ (stripExtension name).data ≠ []) ∨
    stripExtension name = name := by
  rcases hldi : lastDotIndexAux name.data with _ | i
  · right
    simp [stripExtension, hldi]
  · by_cases hi : 0 < i
    · left
      obtain ⟨hlt, heq, hclean⟩ := lastDotIndexAux_some _ _ hldi
      have hdata : (stripExtension name).data = name.data.take i := by
        simp [stripExtension, hldi, hi]
      refine ⟨name.data.drop (i + 1), by rw [hdata]; exact heq, hclean, ?_⟩
      rw [hdata]
      intro hnil
      have hlen := congrArg List.length hnil
      simp only [List.length_take, List.length_nil] at hlen
      omega
    · right
      simp [stripExtension, hldi, hi]

/-- C10: when the tag title is non-empty after trimming, the offered download
filename is a stem with the mp3 extension, where the stem is at most 100
characters long, contains none of the invalid filename characters, has every
whitespace character equal to a single space and never two adjacent
whitespace characters; when the trimmed title is empty, the stem is the
first file's original name without its extension (the name is the stem plus
a dot-led, dot-free extension, or is kept whole when it has no dot at a
positive index). -/
theorem downloadFilename_spec (t : String) (f : NamedFile)
    (fs : List NamedFile) :
    (jsTrim t ≠ "" →
      ∃ stem : List Char,
        deriveDownloadFilename (some t) (f :: fs) = String.mk stem ++ ".mp3" ∧
        stem.length ≤ 100 ∧
        (∀ c ∈ stem, bannedFilenameChar c = false) ∧
        (∀ c ∈ stem, c.isWhitespace → c = ' ') ∧
        List.Chain' (fun a b => ¬(a.isWhitespace ∧ b.isWhitespace)) stem) ∧
    (jsTrim t = "" →
      deriveDownloadFilename (some t) (f :: fs) =
        stripExtension f.name ++ ".mp3" ∧
      ((∃ ext : List Char,
          f.name.data = (stripExtension f.name).data ++ '.' :: ext ∧
            (∀ c ∈ ext, c ≠ '.') ∧ (stripExtension f.name).data ≠ []) ∨
        stripExtension f.name = f.name)) := by
  constructor
  · intro ht
    have ht0 : t ≠ "" := by
      intro h
      subst h
      exact ht (by decide)
    refine ⟨(collapseWsAux false
        ((jsTrim t).data.filter fun c => !bannedFilenameChar c)).take 100,
      ?_, ?_, ?_, ?_, ?_⟩
    · show (if t ≠ "" ∧ jsTrim t ≠ "" then sanitizeTitle t
          else fallbackBase (f :: fs)) ++ ".mp3" = _
      rw [if_pos ⟨ht0, ht⟩]
      rfl
    · exact List.length_take_le 100 _
    · intro c hc
      rcases mem_collapseWsAux _ _ _ (List.mem_of_mem_take hc) with h | h
      · rw [h]; rfl
      · exact Bool.not_eq_true _ ▸ (by
          have := (List.mem_filter.mp h).2
          simpa using this)
    · intro c hc hws
      exact ws_collapseWsAux _ _ _ (List.mem_of_mem_take hc) hws
    · exact (chain_collapseWsAux _ false).take 100
  · intro ht
    constructor
    · show (if t ≠ "" ∧ jsTrim t ≠ "" then sanitizeTitle t
          else fallbackBase (f :: fs)) ++ ".mp3" = _
      rw [if_neg fun hc => hc.2 ht]
      rfl
    · exact stripExtension_spec f.name

/-- C10 witness: the theorem evaluated on a concrete title with an invalid
character and doubled spaces, and on a concrete all-whitespace title with a
two-dot filename fallback. -/
theorem downloadFilename_spec_witness :
    (∃ stem : List Char,
      deriveDownloadFilename (some "a<b  c") [{ name := "x.y.mp3" }] =
        String.mk stem ++ ".mp3" ∧
      stem.length ≤ 100 ∧
      (∀ c ∈ stem, bannedFilenameChar c = false) ∧
      (∀ c ∈ stem, c.isWhitespace → c = ' ') ∧
      List.Chain' (fun a b => ¬(a.isWhitespace ∧ b.isWhitespace)) stem) ∧
    deriveDownloadFilename (some "   ") [{ name := "x.y.mp3" }] =
      stripExtension "x.y.mp3" ++ ".mp3" :=
  ⟨(downloadFilename_spec "a<b  c" { name := "x.y.mp3" } []).1 (by decide),
    ((downloadFilename_spec "   " { name := "x.y.mp3" } []).2 (by decide)).1⟩

end AudioTagEditor
